import Mathlib

/-!
Verification of the Contract-Intelligence-API core against its design spec.

Texts are modelled as `List Char` (Python `str` over the ASCII subset that the
claims exercise).  Each definition is a direct translation of the Python
function named in its doc comment; stateful service methods become pure
functions of the data they read.
-/

namespace ContractIntelligence

/-- Python `str.lower()` restricted to ASCII (all inputs in the claims are
ASCII, where `Char.toLower` agrees with Python). -/
def pyLower (s : List Char) : List Char :=
  s.map Char.toLower

/-- Python regex `\d` on ASCII input. -/
def pyIsDigit (c : Char) : Bool :=
  decide ('0' ≤ c) && decide (c ≤ '9')

/-- Python regex `\s` on ASCII input: space, tab, newline, carriage return,
vertical tab, form feed. -/
def pyIsSpace (c : Char) : Bool :=
  c = ' ' || c = '\t' || c = '\n' || c = '\r' || c = '\x0b' || c = '\x0c'

/-- Python `int(s)` on a non-empty digit string (the regex capture group is
`\d+`, so only digit strings reach it). -/
def pyInt (s : List Char) : Nat :=
  s.foldl (fun n c => 10 * n + (c.toNat - '0'.toNat)) 0

/-- Python substring containment `needle in hay`. -/
def pySubstr : List Char → List Char → Bool
  | needle, [] => needle.isEmpty
  | needle, c :: rest => needle.isPrefixOf (c :: rest) || pySubstr needle rest

/-- `LLMService._find_evidence` (llm_service.py:259-270): scan the lines of
`text` (split on a newline); on the first line whose lowercasing contains every
keyword as a substring, return the surrounding lines `[max 0 (i-2), min n (i+3))`
joined with newlines; otherwise return the fixed placeholder string. -/
def findEvidence (text : List Char) (keywords : List (List Char)) : List Char :=
  match (text.splitOn '\n').findIdx?
      (fun line => keywords.all (fun kw => pySubstr kw (pyLower line))) with
  | some i =>
      List.intercalate ['\n']
        (((text.splitOn '\n').drop (i - 2)).take
          (min (text.splitOn '\n').length (i + 3) - (i - 2)))
  | none => "Evidence not found in text".data

/-- One scanning step of Python `re.findall(r'(\d+)\s*(?:day|days|d)', s)`,
fuelled (fuel `s.length` always suffices: every step consumes at least one
character).  At each position: greedily take digits; if none, slide one
character; otherwise skip whitespace and require the alternation
`day|days|d` (tried in that order, so `days` is shadowed by `day`); the
capture is the digit run and scanning resumes after the match. -/
def findallDaysGo : Nat → List Char → List (List Char)
  | 0, _ => []
  | _, [] => []
  | fuel + 1, c :: rest =>
    let s := c :: rest
    let ds := s.takeWhile pyIsDigit
    if ds.isEmpty then findallDaysGo fuel rest
    else
      match (s.dropWhile pyIsDigit).dropWhile pyIsSpace with
      | 'd' :: 'a' :: 'y' :: after => ds :: findallDaysGo fuel after
      | 'd' :: after => ds :: findallDaysGo fuel after
      | _ => findallDaysGo fuel rest

/-- `re.findall(r'(\d+)\s*(?:day|days|d)', s)` as used in
`LLMService.audit_contract` (llm_service.py:156-157). -/
def findallDays (s : List Char) : List (List Char) :=
  findallDaysGo s.length s

/-- A risk finding as built by `LLMService.audit_contract`
(llm_service.py:145-215).  `char_range` and `page` are always `None` for the
rule-based findings, kept here for fidelity to the emitted dicts. -/
structure Finding where
  severity : String
  category : String
  description : List Char
  evidence : List Char
  char_range : Option (Nat × Nat)
  page : Option Nat
deriving DecidableEq, Repr

/-- The `liability_cap` JSON object.  `amount = none` models a JSON `null`
value; a missing `"amount"` key defaults to `0` via `.get("amount", 0)` and is
therefore written `some 0`. -/
structure LiabilityCap where
  amount : Option Int
deriving DecidableEq, Repr

/-- The extracted-field dict as consumed by `audit_contract`:
`auto_renewal` is the truthiness of `extracted_fields.get("auto_renewal")`;
`liability_cap = none` models an absent key or JSON `null` (any non-dict value
behaves the same under the `isinstance` guard); `indemnity = []` models an
absent key, an empty string, or any non-string value (all falsy or rejected by
the `isinstance` guard). -/
structure ExtractedFields where
  auto_renewal : Bool
  liability_cap : Option LiabilityCap
  indemnity : List Char
deriving DecidableEq, Repr

/-- Predicate for a high-severity liability finding. -/
def isHighLiability (f : Finding) : Bool :=
  f.category == "liability" && f.severity == "high"

/-- The auto-renewal rule of `audit_contract` (llm_service.py:149-168).
Note the guard: the rule only runs when the literal substring `"30"` occurs in
the raw text and `"day"` occurs in the lowercased text; then the first regex
match whose number is below 30 produces the finding (`break` after the first
append). -/
def auditAutoRenewal (text : List Char) (fields : ExtractedFields) : List Finding :=
  if fields.auto_renewal then
    if pySubstr "30".data text && pySubstr "day".data (pyLower text) then
      match (findallDays (pyLower text)).find? (fun m => pyInt m < 30) with
      | some m =>
          [{ severity := "high", category := "auto_renewal",
             description := "Auto-renewal with only ".data ++ m ++ " days notice".data,
             evidence := findEvidence text ["auto".data, "renew".data],
             char_range := none, page := none }]
      | none => []
    else []
  else []

/-- The unlimited-liability rule of `audit_contract` (llm_service.py:170-180):
fires when both `"unlimited"` and `"liability"` occur as substrings of the
lowercased text. -/
def auditUnlimitedLiability (text : List Char) : List Finding :=
  if pySubstr "unlimited".data (pyLower text) && pySubstr "liability".data (pyLower text) then
    [{ severity := "high", category := "liability",
       description := "Unlimited liability clause detected".data,
       evidence := findEvidence text ["unlimited".data, "liability".data],
       char_range := none, page := none }]
  else []

/-- The liability-cap rule of `audit_contract` (llm_service.py:182-194):
only a truthy dict passes the guard `if liability_cap and isinstance(liability_cap, dict)`;
then `amount = liability_cap.get("amount", 0)` triggers on `0` or `None`. -/
def auditLiabilityCap (fields : ExtractedFields) : List Finding :=
  match fields.liability_cap with
  | none => []
  | some cap =>
    match cap.amount with
    | none =>
        [{ severity := "medium", category := "liability",
           description := "No liability cap specified".data,
           evidence := "Liability cap field is null or zero".data,
           char_range := none, page := none }]
    | some a =>
        if a = 0 then
          [{ severity := "medium", category := "liability",
             description := "No liability cap specified".data,
             evidence := "Liability cap field is null or zero".data,
             char_range := none, page := none }]
        else []

/-- The broad-indemnity rule of `audit_contract` (llm_service.py:196-208):
fires on a non-empty indemnity string whose lowercasing contains any of the
four keywords as a substring; evidence is the first 200 characters. -/
def auditIndemnity (fields : ExtractedFields) : List Finding :=
  if !fields.indemnity.isEmpty &&
      (["all", "any", "every", "unlimited"].any
        (fun w => pySubstr w.data (pyLower fields.indemnity))) then
    [{ severity := "high", category := "indemnity",
       description := "Broad indemnity clause detected".data,
       evidence := fields.indemnity.take 200,
       char_range := none, page := none }]
  else []

/-- `LLMService.audit_contract` (llm_service.py:145-215) with the LLM client
unconfigured (`self.client is None`, the deterministic path): the four rule
checks run in order and their findings are concatenated; the LLM-assisted
extension at llm_service.py:211-213 is an external capability and does not run. -/
def auditContract (text : List Char) (fields : ExtractedFields) : List Finding :=
  auditAutoRenewal text fields
    ++ auditUnlimitedLiability text
    ++ auditLiabilityCap fields
    ++ auditIndemnity fields

/-- One entry of the `pages` list built by `PDFService.extract_text`
(pdf_service.py:43-48). -/
structure Page where
  page : Nat
  text : List Char
  char_start : Nat
  char_end : Nat
deriving DecidableEq, Repr

/-- The metadata dict persisted by `PDFService.extract_text`
(pdf_service.py:68-75); `document_id` and `filename` carry no content the
claims use and are omitted. -/
structure DocumentMetadata where
  text : List Char
  pages : List Page
  page_offsets : List Nat
  total_chars : Nat
deriving DecidableEq, Repr

/-- The page loop of `PDFService.extract_text` (pdf_service.py:41-51): given
the extracted page texts, the current page number and `char_offset`, produce
the `pages` records, the accumulated `full_text` (each page text followed by
one `"\n"`, including after the last page) and the `page_offsets` list. -/
def buildPages : List (List Char) → Nat → Nat → List Page × List Char × List Nat
  | [], _, _ => ([], [], [])
  | t :: ts, pageNum, charOffset =>
    (⟨pageNum, t, charOffset, charOffset + t.length⟩
        :: (buildPages ts (pageNum + 1) (charOffset + t.length + 1)).1,
     t ++ '\n' :: (buildPages ts (pageNum + 1) (charOffset + t.length + 1)).2.1,
     charOffset :: (buildPages ts (pageNum + 1) (charOffset + t.length + 1)).2.2)

/-- `PDFService.extract_text` (pdf_service.py:27-82) as a function of the
per-page extracted texts (the PDF parsing itself is an external capability;
both parser branches build the metadata identically).  `total_chars` is
`len(full_text)`. -/
def extractText (pageTexts : List (List Char)) : DocumentMetadata :=
  { text := (buildPages pageTexts 1 0).2.1,
    pages := (buildPages pageTexts 1 0).1,
    page_offsets := (buildPages pageTexts 1 0).2.2,
    total_chars := (buildPages pageTexts 1 0).2.1.length }

/-- Python `range(i, stop, s1 + 1)` for a positive step, fuelled (fuel `stop`
suffices for the initial call with `i = 0`: every step advances `i` by at
least one). -/
def rangeUpFromGo : Nat → Nat → Nat → Nat → List Nat
  | 0, _, _, _ => []
  | fuel + 1, stop, s1, i =>
    if i < stop then i :: rangeUpFromGo fuel stop s1 (i + s1 + 1) else []

/-- Python `range(0, stop, step)` for a positive step `s1 + 1`. -/
def rangeUpFrom (stop s1 : Nat) : List Nat :=
  rangeUpFromGo stop stop s1 0

/-- The message of the `ValueError` Python raises for a zero range step. -/
def rangeErrorMsg : String := "range() arg 3 must not be zero"

/-- Python `range(0, stop, step)` for an arbitrary integer step and a
non-negative stop: a zero step raises `ValueError`; a negative step yields the
empty range (the start 0 is never above `stop ≥ 0`). -/
def pyRangeZeroStart (stop : Nat) (step : Int) : Except String (List Nat) :=
  if step = 0 then Except.error rangeErrorMsg
  else if step < 0 then Except.ok []
  else Except.ok (rangeUpFrom stop (step.toNat - 1))

/-- A chunk as assembled by `RAGService.index_document`
(rag_service.py:43-59): id, text span, page number and absolute character
range. -/
structure Chunk where
  chunk_id : String
  text : List Char
  page : Nat
  char_start : Nat
  char_end : Nat
deriving DecidableEq, Repr

/-- The chunk id `f"{document_id}_page{page_num}_chunk{i}"`
(rag_service.py:51). -/
def chunkId (documentId : String) (pageNum i : Nat) : String :=
  documentId ++ "_page" ++ toString pageNum ++ "_chunk" ++ toString i

/-- The window body of `RAGService.index_document` (rag_service.py:43-59) on
one page, applied to the window starts `idxs` produced by `range`: slice
`page_text[i : i + chunk_size]`, skip the window when its `strip()` is empty
(equivalently: every character is whitespace), otherwise record the chunk with
`char_start = page.char_start + i` and
`char_end = min (char_start + len(chunk)) page.char_end`. -/
def chunkPage (documentId : String) (p : Page) (chunkSize : Nat) (idxs : List Nat) :
    List Chunk :=
  idxs.filterMap (fun i =>
    let chunk := (p.text.drop i).take chunkSize
    if chunk.all pyIsSpace then none
    else some { chunk_id := chunkId documentId p.page i,
                text := chunk,
                page := p.page,
                char_start := p.char_start + i,
                char_end := min (p.char_start + i + chunk.length) p.char_end })

/-- The chunking loop of `RAGService.index_document` (rag_service.py:37-59) as
a function of the stored pages: for each page in order, window starts come
from `range(0, len(page_text), chunk_size - chunk_overlap)`; a `ValueError`
raised by `range` (zero step) propagates and aborts indexing.  The embedding
and vector-store upsert (rag_service.py:61-70) are external capabilities. -/
def chunkDocument (documentId : String) (pages : List Page)
    (chunkSize chunkOverlap : Nat) : Except String (List Chunk) :=
  match pages with
  | [] => Except.ok []
  | p :: ps =>
    match pyRangeZeroStart p.text.length ((chunkSize : Int) - (chunkOverlap : Int)) with
    | Except.error e => Except.error e
    | Except.ok idxs =>
      match chunkDocument documentId ps chunkSize chunkOverlap with
      | Except.error e => Except.error e
      | Except.ok rest => Except.ok (chunkPage documentId p chunkSize idxs ++ rest)

/-- The lookup loop of `PDFService.get_page_for_char_position`
(pdf_service.py:98-102), carrying the current index `i`: with a successor
offset, return page `i + 1` when `offset ≤ char_pos < page_offsets[i+1]`; on
the last offset, return `i + 1` when `offset ≤ char_pos`; `none` models
falling through the loop. -/
def getPageGo : Nat → Int → List Nat → Option Nat
  | _, _, [] => none
  | i, cp, off :: rest =>
    match rest with
    | next :: _ =>
      if (off : Int) ≤ cp ∧ cp < (next : Int) then some (i + 1)
      else getPageGo (i + 1) cp rest
    | [] =>
      if (off : Int) ≤ cp then some (i + 1) else none

/-- `PDFService.get_page_for_char_position` (pdf_service.py:93-104) as a
function of the stored `page_offsets` table (the metadata load is external
state access): run the loop, and return 1 when it falls through. -/
def getPageForCharPosition (pageOffsets : List Nat) (charPos : Int) : Nat :=
  match getPageGo 0 charPos pageOffsets with
  | some p => p
  | none => 1

/-- Text of the spec scenario for the auto-renewal rule (second page of the §8
scenario document). -/
def autoRenewText : List Char :=
  "This agreement auto-renews every year with 10 days notice.".data

/-- Fields with `auto_renewal = true` and nothing else set, as in the spec
scenario. -/
def autoRenewFields : ExtractedFields :=
  { auto_renewal := true, liability_cap := none, indemnity := [] }

/-- A neutral contract text that triggers no keyword rule. -/
def neutralText : List Char :=
  "The parties agree to the terms set out below.".data

/-- Fields with `liability_cap = None` (and no other trigger), as in the spec
scenario. -/
def noCapFields : ExtractedFields :=
  { auto_renewal := false, liability_cap := none, indemnity := [] }

/-- A text whose two keywords sit on different lines. -/
def splitKeywordText : List Char := "unlimited\nliability".data

/-- The page texts of a small two-page document used as concrete witness
input. -/
def witnessPages : List (List Char) := [['a', 'b'], ['c']]

/-- The first chunk the chunker emits on `witnessPages` with
`chunk_size = 2, chunk_overlap = 1`. -/
def wChunk : Chunk :=
  { chunk_id := "doc_page1_chunk0", text := ['a', 'b'],
    page := 1, char_start := 0, char_end := 2 }

/-- All chunks the chunker emits on `witnessPages` with
`chunk_size = 2, chunk_overlap = 1`. -/
def wChunks : List Chunk :=
  [wChunk,
   { chunk_id := "doc_page1_chunk1", text := ['b'],
     page := 1, char_start := 1, char_end := 2 },
   { chunk_id := "doc_page2_chunk0", text := ['c'],
     page := 2, char_start := 3, char_end := 4 }]

/-!  ## Theorems  -/

/-- Every finding the auto-renewal rule can emit has category
`"auto_renewal"`. -/
lemma mem_auditAutoRenewal_category {text : List Char} {fields : ExtractedFields}
    {f : Finding} (hf : f ∈ auditAutoRenewal text fields) :
    f.category = "auto_renewal" := by
  unfold auditAutoRenewal at hf
  split at hf
  · split at hf
    · split at hf
      · simp only [List.mem_singleton] at hf
        subst hf
        rfl
      · simp at hf
    · simp at hf
  · simp at hf

/-- Every finding the liability-cap rule can emit has severity `"medium"`. -/
lemma mem_auditLiabilityCap_severity {fields : ExtractedFields} {f : Finding}
    (hf : f ∈ auditLiabilityCap fields) :
    f.severity = "medium" := by
  unfold auditLiabilityCap at hf
  split at hf
  · simp at hf
  · split at hf
    · simp only [List.mem_singleton] at hf
      subst hf
      rfl
    · split at hf
      · simp only [List.mem_singleton] at hf
        subst hf
        rfl
      · simp at hf

/-- Every finding the broad-indemnity rule can emit has category
`"indemnity"`. -/
lemma mem_auditIndemnity_category {fields : ExtractedFields} {f : Finding}
    (hf : f ∈ auditIndemnity fields) :
    f.category = "indemnity" := by
  unfold auditIndemnity at hf
  split at hf
  · simp only [List.mem_singleton] at hf
    subst hf
    rfl
  · simp at hf

/-- C1: the claim says an auto-renewal finding is emitted (with
`fields.auto_renewal` true) if and only if some "N day(s)" token with N < 30
occurs — in particular one finding for a text containing "10 days".  The code
additionally requires the literal substring "30" in the raw text
(llm_service.py:153) before it scans for day counts, so on the spec's own
scenario text, which contains "10 days" but not "30", the day-count scan would
find 10 < 30 yet no finding at all is emitted. -/
theorem audit_autoRenewal_requires_literal_30 :
    autoRenewFields.auto_renewal = true
    ∧ (findallDays (pyLower autoRenewText)).any (fun m => decide (pyInt m < 30)) = true
    ∧ pySubstr "30".data autoRenewText = false
    ∧ (auditContract autoRenewText autoRenewFields).filter
        (fun f => f.category == "auto_renewal") = [] := by
  refine ⟨rfl, by decide, by decide, by decide⟩

/-- C2: the claim says a missing-liability-cap finding is emitted whenever
`fields.liability_cap` is `None` (or its amount is zero/absent).  The guard
`if liability_cap and isinstance(liability_cap, dict)` (llm_service.py:184)
skips the rule entirely when the field is `None`, so the audit of a neutral
text with `liability_cap = None` produces no findings at all, against the
spec's scenario of exactly one medium liability finding. -/
theorem audit_liabilityCap_none_yields_no_finding :
    noCapFields.liability_cap = none
    ∧ auditContract neutralText noCapFields = [] := by
  exact ⟨rfl, by decide⟩

/-- C8: the audit emits exactly one finding with category `"liability"` and
severity `"high"` precisely when both `"unlimited"` and `"liability"` occur in
the lowercased text (the spec's "token appears anywhere, case-insensitive" is
substring occurrence, as in the source's `in` checks), and none otherwise —
for every text and extracted-field set. -/
theorem audit_unlimited_liability_iff (text : List Char) (fields : ExtractedFields) :
    (auditContract text fields).countP isHighLiability
      = if pySubstr "unlimited".data (pyLower text)
            && pySubstr "liability".data (pyLower text)
        then 1 else 0 := by
  unfold auditContract
  rw [List.countP_append, List.countP_append, List.countP_append]
  have h1 : (auditAutoRenewal text fields).countP isHighLiability = 0 := by
    rw [List.countP_eq_zero]
    intro f hf
    rw [isHighLiability, mem_auditAutoRenewal_category hf]
    simp
  have h3 : (auditLiabilityCap fields).countP isHighLiability = 0 := by
    rw [List.countP_eq_zero]
    intro f hf
    rw [isHighLiability, mem_auditLiabilityCap_severity hf]
    simp
  have h4 : (auditIndemnity fields).countP isHighLiability = 0 := by
    rw [List.countP_eq_zero]
    intro f hf
    rw [isHighLiability, mem_auditIndemnity_category hf]
    simp
  have h2 : (auditUnlimitedLiability text).countP isHighLiability
      = if pySubstr "unlimited".data (pyLower text)
            && pySubstr "liability".data (pyLower text)
        then 1 else 0 := by
    unfold auditUnlimitedLiability
    split
    · rfl
    · rfl
  rw [h1, h2, h3, h4]
  omega

/-- C9: on a document whose stored `page_offsets` table is empty (zero
pages) the lookup loop never fires and `get_page_for_char_position` returns
page 1 for every character position. -/
theorem pageForOffset_empty_table_returns_one :
    (extractText []).page_offsets = []
    ∧ ∀ cp : Int, getPageForCharPosition (extractText []).page_offsets cp = 1 := by
  exact ⟨rfl, fun cp => rfl⟩

/-- `findIdx?`, started at index `j`, finds `j + i` when position `i` holds
the first element satisfying the predicate. -/
lemma findIdx?_eq_of_first {α : Type} (p : α → Bool) (l : List α) :
    ∀ (j i : Nat) (h : i < l.length), p (l.get ⟨i, h⟩) = true →
    (∀ x ∈ l.take i, p x = false) →
    l.findIdx? p j = some (j + i) := by
  induction l with
  | nil => intro j i h; simp at h
  | cons a l ih =>
    intro j i h hp hprev
    cases i with
    | zero =>
      simp only [List.get] at hp
      rw [List.findIdx?_cons, hp]
      simp
    | succ i =>
      have ha : p a = false := by
        apply hprev
        simp [List.take_succ_cons]
      rw [List.findIdx?_cons, ha]
      simp only [Bool.false_eq_true, if_false]
      have := ih (j + 1) i (by simpa using h) (by simpa using hp)
        (by intro x hx; exact hprev x (by simp [List.take_succ_cons, hx]))
      rw [this]
      congr 1
      omega

/-- C10: `_find_evidence` returns the lines `[max 0 (i-2), min n (i+3))`
around the first line `i` whose lowercasing contains every keyword as a
substring, and the fixed placeholder when no single line contains all of
them; consequently the unlimited-liability rule can fire on a text whose two
keywords sit on different lines while its evidence is the placeholder rather
than document text. -/
theorem findEvidence_first_line_or_placeholder :
    (∀ (text : List Char) (keywords : List (List Char)) (i : Nat)
        (h : i < (text.splitOn '\n').length),
        (keywords.all (fun kw =>
          pySubstr kw (pyLower ((text.splitOn '\n').get ⟨i, h⟩)))) = true →
        (∀ line ∈ (text.splitOn '\n').take i,
          (keywords.all (fun kw => pySubstr kw (pyLower line))) = false) →
        findEvidence text keywords =
          List.intercalate ['\n']
            (((text.splitOn '\n').drop (i - 2)).take
              (min (text.splitOn '\n').length (i + 3) - (i - 2))))
    ∧ (∀ (text : List Char) (keywords : List (List Char)),
        (∀ line ∈ text.splitOn '\n',
          (keywords.all (fun kw => pySubstr kw (pyLower line))) = false) →
        findEvidence text keywords = "Evidence not found in text".data)
    ∧ (auditContract splitKeywordText noCapFields).map
        (fun f => (f.category, f.severity, f.evidence))
        = [("liability", "high", "Evidence not found in text".data)] := by
  refine ⟨?_, ?_, by decide⟩
  · intro text keywords i h hp hprev
    unfold findEvidence
    rw [findIdx?_eq_of_first _ _ 0 i h hp hprev]
    simp
  · intro text keywords hnone
    unfold findEvidence
    rw [List.findIdx?_eq_none_iff.mpr hnone]

/-- The page loop emits one page record per page text. -/
lemma buildPages_pages_length (ts : List (List Char)) :
    ∀ num off, (buildPages ts num off).1.length = ts.length := by
  induction ts with
  | nil => intro num off; rfl
  | cons t ts ih => intro num off; simp [buildPages, ih]

/-- The page loop emits one offset per page text. -/
lemma buildPages_offsets_length (ts : List (List Char)) :
    ∀ num off, (buildPages ts num off).2.2.length = ts.length := by
  induction ts with
  | nil => intro num off; rfl
  | cons t ts ih => intro num off; simp [buildPages, ih]

/-- The accumulated full text is exactly the page texts plus one separator per
page (the `"\n"` appended after every page, including the last). -/
lemma buildPages_text_length (ts : List (List Char)) :
    ∀ num off, (buildPages ts num off).2.1.length
      = ((buildPages ts num off).1.map (fun p => p.text.length)).sum
        + (buildPages ts num off).1.length := by
  induction ts with
  | nil => intro num off; rfl
  | cons t ts ih =>
    intro num off
    simp only [buildPages, List.length_append, List.length_cons, List.map_cons,
      List.sum_cons]
    have := ih (num + 1) (off + t.length + 1)
    omega

/-- C3 counterexample: for the one-page document with page text `"a"` the
full text is `"a\n"` (length 2) while the claimed
`sum(len(page.text)) + (num_pages - 1)` is 1 — the source appends the
separator after every page, including the last, instead of joining. -/
theorem extractText_offByOne_counterexample :
    ¬ ((((extractText [['a']]).pages.map (fun p => p.text.length)).sum
          + ((extractText [['a']]).pages.length - 1))
        = (extractText [['a']]).text.length) := by
  decide

/-- C3 amended: for every document produced by `extract_text` with at least
one page, `sum(len(page.text)) + num_pages = len(full_text)` (one separator
per page, appended after every page including the last), and `total_chars`
equals `len(full_text)`. -/
theorem extractText_length_sum (pts : List (List Char)) (h : pts ≠ []) :
    (((extractText pts).pages.map (fun p => p.text.length)).sum
        + (extractText pts).pages.length = (extractText pts).text.length)
    ∧ (extractText pts).total_chars = (extractText pts).text.length := by
  refine ⟨?_, rfl⟩
  show ((buildPages pts 1 0).1.map (fun p => p.text.length)).sum
      + (buildPages pts 1 0).1.length = (buildPages pts 1 0).2.1.length
  have := buildPages_text_length pts 1 0
  omega

/-- Witness for C3 (amended) at the two-page document `["a", "bc"]`:
`1 + 2 + 2 = 5 = len "a\nbc\n"`. -/
theorem extractText_length_sum_witness :
    (((extractText [['a'], ['b', 'c']]).pages.map (fun p => p.text.length)).sum
        + (extractText [['a'], ['b', 'c']]).pages.length
        = (extractText [['a'], ['b', 'c']]).text.length)
    ∧ (extractText [['a'], ['b', 'c']]).total_chars
        = (extractText [['a'], ['b', 'c']]).text.length :=
  extractText_length_sum [['a'], ['b', 'c']] (by decide)

/-- C4 counterexample: with `chunk_overlap = 20 > chunk_size = 10` on a
one-page document, `index_document`'s chunking neither raises any error nor
emits any chunk — the negative stride makes every `range` empty, and no
`ConfigError` (which does not exist in the code) is raised. -/
theorem chunkOverlap_gt_size_silently_empty :
    chunkDocument "doc" (extractText ["hello world".data]).pages 10 20
      = Except.ok [] := by
  rfl

/-- C4 amended: no configuration validation exists and no `ConfigError` type
is defined; for `chunk_overlap ≥ chunk_size` the window loop body never runs:
with `chunk_overlap > chunk_size` the stride is negative, every `range` is
empty and chunking succeeds with no chunks, and with
`chunk_overlap = chunk_size` the stride is zero and Python's `range` raises
`ValueError` on the first page, before any window iteration. -/
theorem chunkOverlap_ge_size_never_runs (documentId : String) (pages : List Page)
    (cs co : Nat) (h : cs ≤ co) :
    chunkDocument documentId pages cs co
      = if cs = co ∧ pages ≠ [] then Except.error rangeErrorMsg
        else Except.ok [] := by
  induction pages with
  | nil => simp [chunkDocument]
  | cons p ps ih =>
    unfold chunkDocument
    by_cases hco : cs = co
    · subst hco
      have hz : ((cs : Int) - (cs : Int)) = 0 := by omega
      simp [pyRangeZeroStart, hz]
    · have hlt : ((cs : Int) - (co : Int)) < 0 := by
        have : cs < co := lt_of_le_of_ne h hco
        omega
      have hnz : ¬ ((cs : Int) - (co : Int)) = 0 := by omega
      rw [ih]
      simp [pyRangeZeroStart, hnz, hlt, hco, chunkPage]

/-- Witness for C4 (amended) at `chunk_size = chunk_overlap = 5` on a
one-page document: chunking fails with the `range` ValueError. -/
theorem chunkOverlap_ge_size_never_runs_witness :
    chunkDocument "doc" (extractText [['h', 'i']]).pages 5 5
      = Except.error rangeErrorMsg := by
  have h := chunkOverlap_ge_size_never_runs "doc" (extractText [['h', 'i']]).pages
    5 5 (le_refl 5)
  exact h.trans (by rfl)

/-- Witness for C10: on a three-line text whose middle line holds both
keywords, the evidence is the full ±2-line context (here the whole text). -/
theorem findEvidence_witness :
    findEvidence "a\nunlimited liability\nb".data
        ["unlimited".data, "liability".data]
      = "a\nunlimited liability\nb".data := by
  have h := findEvidence_first_line_or_placeholder.1
    "a\nunlimited liability\nb".data ["unlimited".data, "liability".data]
    1 (by decide) (by decide) (by decide)
  exact h.trans (by decide)

/-- Every offset the page loop records is at least the initial offset and
strictly below the initial offset plus the accumulated text length. -/
lemma buildPages_offsets_bounds (ts : List (List Char)) :
    ∀ num off x, x ∈ (buildPages ts num off).2.2 →
    off ≤ x ∧ x < off + (buildPages ts num off).2.1.length := by
  induction ts with
  | nil => intro num off x hx; simp [buildPages] at hx
  | cons t ts ih =>
    intro num off x hx
    simp only [buildPages, List.mem_cons] at hx
    simp only [buildPages, List.length_append, List.length_cons]
    rcases hx with rfl | hx
    · omega
    · have := ih (num + 1) (off + t.length + 1) x hx
      omega

/-- The offset table the page loop records is strictly increasing. -/
lemma buildPages_offsets_sorted (ts : List (List Char)) :
    ∀ num off, List.Sorted (· < ·) (buildPages ts num off).2.2 := by
  induction ts with
  | nil => intro num off; simp [buildPages]
  | cons t ts ih =>
    intro num off
    simp only [buildPages]
    rw [List.sorted_cons]
    refine ⟨?_, ih (num + 1) (off + t.length + 1)⟩
    intro x hx
    have := buildPages_offsets_bounds ts (num + 1) (off + t.length + 1) x hx
    omega

/-- Every page the page loop records starts at or after the initial offset,
and its `char_end` is `char_start + len(text)`. -/
lemma buildPages_char_start_lb (ts : List (List Char)) :
    ∀ num off p, p ∈ (buildPages ts num off).1 →
    off ≤ p.char_start ∧ p.char_end = p.char_start + p.text.length := by
  induction ts with
  | nil => intro num off p hp; simp [buildPages] at hp
  | cons t ts ih =>
    intro num off p hp
    simp only [buildPages, List.mem_cons] at hp
    rcases hp with rfl | hp
    · exact ⟨le_refl off, rfl⟩
    · have := ih (num + 1) (off + t.length + 1) p hp
      exact ⟨by omega, this.2⟩

/-- One-step unfolding of the lookup loop on a single remaining offset. -/
lemma getPageGo_single (i : Nat) (cp : Int) (off : Nat) :
    getPageGo i cp [off] = if (off : Int) ≤ cp then some (i + 1) else none := rfl

/-- One-step unfolding of the lookup loop on two or more remaining offsets. -/
lemma getPageGo_cons_cons (i : Nat) (cp : Int) (off next : Nat) (rest : List Nat) :
    getPageGo i cp (off :: next :: rest)
      = if (off : Int) ≤ cp ∧ cp < (next : Int) then some (i + 1)
        else getPageGo (i + 1) cp (next :: rest) := rfl

/-- A negative position satisfies no loop condition: the lookup loop falls
through. -/
lemma getPageGo_neg (cp : Int) (hcp : cp < 0) :
    ∀ (offs : List Nat) (i : Nat), getPageGo i cp offs = none := by
  intro offs
  induction offs with
  | nil => intro i; rfl
  | cons off rest ih =>
    intro i
    cases rest with
    | nil =>
      rw [getPageGo_single, if_neg (by omega)]
    | cons next rest2 =>
      rw [getPageGo_cons_cons, if_neg (by omega)]
      exact ih (i + 1)

/-- A position at or above every offset reaches the last-offset branch: the
loop returns the final index. -/
lemma getPageGo_all_le (cp : Int) :
    ∀ (offs : List Nat) (i : Nat), offs ≠ [] → (∀ x ∈ offs, (x : Int) ≤ cp) →
    getPageGo i cp offs = some (i + offs.length) := by
  intro offs
  induction offs with
  | nil => intro i h; exact absurd rfl h
  | cons off rest ih =>
    intro i hne hall
    cases rest with
    | nil =>
      have h : (off : Int) ≤ cp := hall off (by simp)
      rw [getPageGo_single, if_pos h]
      rfl
    | cons next rest2 =>
      have hnext : (next : Int) ≤ cp := hall next (by simp)
      have h : ¬ ((off : Int) ≤ cp ∧ cp < (next : Int)) := by omega
      rw [getPageGo_cons_cons, if_neg h,
        ih (i + 1) (by simp) (fun x hx => hall x (List.mem_cons_of_mem off hx))]
      simp only [List.length_cons, Option.some.injEq]
      omega

/-- The in-range case: when a page of the document contains the position, the
loop (entered at index `i` with the pages numbered from `i + 1`) returns that
page's number. -/
lemma getPageGo_page_hit (cp : Int) :
    ∀ (ts : List (List Char)) (off i : Nat) (p : Page),
      p ∈ (buildPages ts (i + 1) off).1 →
      (p.char_start : Int) ≤ cp → cp < (p.char_end : Int) →
      getPageGo i cp (buildPages ts (i + 1) off).2.2 = some p.page := by
  intro ts
  induction ts with
  | nil => intro off i p hp; simp [buildPages] at hp
  | cons t ts ih =>
    intro off i p hp h1 h2
    simp only [buildPages, List.mem_cons] at hp
    rcases hp with rfl | hp
    · simp only at h1 h2
      cases hts : ts with
      | nil =>
        simp only [buildPages, hts]
        rw [getPageGo_single, if_pos h1]
      | cons t2 ts2 =>
        simp only [buildPages, hts]
        have hcond : (off : Int) ≤ cp ∧ cp < ((off + t.length + 1 : Nat) : Int) := by
          refine ⟨h1, ?_⟩
          push_cast at h2 ⊢
          omega
        rw [getPageGo_cons_cons, if_pos hcond]
    · cases hts : ts with
      | nil =>
        subst hts
        simp [buildPages] at hp
      | cons t2 ts2 =>
        subst hts
        have hlb :=
          (buildPages_char_start_lb (t2 :: ts2) (i + 1 + 1) (off + t.length + 1) p hp).1
        have hcond : ¬ ((off : Int) ≤ cp ∧ cp < ((off + t.length + 1 : Nat) : Int)) := by
          intro hh
          have h3 := hh.2
          push_cast at h3 h1
          omega
        have hrec := ih (off + t.length + 1) (i + 1) p hp h1 h2
        simp only [buildPages]
        simp only [buildPages] at hrec
        rw [getPageGo_cons_cons, if_neg hcond]
        exact hrec

/-- The final-page case: when the final page (whose range is
`[char_start, ∞)`) starts at or before the position, the loop (entered at
index `i` with the pages numbered from `i + 1`) returns that page's number. -/
lemma getPageGo_last_page_hit (cp : Int) :
    ∀ (ts : List (List Char)) (off i : Nat) (p : Page),
      p ∈ (buildPages ts (i + 1) off).1 →
      p.page = i + ts.length →
      (p.char_start : Int) ≤ cp →
      getPageGo i cp (buildPages ts (i + 1) off).2.2 = some p.page := by
  intro ts
  induction ts with
  | nil => intro off i p hp; simp [buildPages] at hp
  | cons t ts ih =>
    intro off i p hp hlast h1
    simp only [buildPages, List.mem_cons] at hp
    rcases hp with rfl | hp
    · simp only [List.length_cons] at hlast
      have hts : ts = [] := by
        have hlen0 : ts.length = 0 := by omega
        exact List.length_eq_zero.mp hlen0
      subst hts
      simp only [buildPages]
      rw [getPageGo_single, if_pos h1]
    · cases hts : ts with
      | nil =>
        subst hts
        simp [buildPages] at hp
      | cons t2 ts2 =>
        subst hts
        have hlb :=
          (buildPages_char_start_lb (t2 :: ts2) (i + 1 + 1) (off + t.length + 1) p hp).1
        have hcond : ¬ ((off : Int) ≤ cp ∧ cp < ((off + t.length + 1 : Nat) : Int)) := by
          intro hh
          have h3 := hh.2
          push_cast at h3 h1
          omega
        have hlast2 : p.page = (i + 1) + (t2 :: ts2).length := by
          simp only [List.length_cons] at hlast ⊢
          omega
        have hrec := ih (off + t.length + 1) (i + 1) p hp hlast2 h1
        simp only [buildPages]
        simp only [buildPages] at hrec
        rw [getPageGo_cons_cons, if_neg hcond]
        exact hrec

/-- C6: for every document with at least one page and every integer position,
`get_page_for_char_position` never fails: a negative position clamps to page
1, a position at or beyond `total_chars` clamps to the last page number, and a
position inside a page's range — `[char_start, char_end)` for a non-final
page, `[char_start, ∞)` for the final page — yields that page's number. -/
theorem pageForOffset_clamps (pts : List (List Char)) (hne : pts ≠ []) (cp : Int) :
    (cp < 0 → getPageForCharPosition (extractText pts).page_offsets cp = 1)
    ∧ (((extractText pts).total_chars : Int) ≤ cp →
        getPageForCharPosition (extractText pts).page_offsets cp
          = (extractText pts).pages.length)
    ∧ (∀ p ∈ (extractText pts).pages,
        (p.char_start : Int) ≤ cp →
        (cp < (p.char_end : Int) ∨ p.page = (extractText pts).pages.length) →
        getPageForCharPosition (extractText pts).page_offsets cp = p.page) := by
  refine ⟨?_, ?_, ?_⟩
  · intro hcp
    unfold getPageForCharPosition
    rw [getPageGo_neg cp hcp]
  · intro hcp
    have hlen : (buildPages pts 1 0).2.2.length = pts.length :=
      buildPages_offsets_length pts 1 0
    have hnil : (buildPages pts 1 0).2.2 ≠ [] := by
      intro h
      apply hne
      cases pts with
      | nil => rfl
      | cons a l => rw [h] at hlen; simp at hlen
    have hall : ∀ x ∈ (buildPages pts 1 0).2.2, (x : Int) ≤ cp := by
      intro x hx
      have hb := buildPages_offsets_bounds pts 1 0 x hx
      have hc : ((buildPages pts 1 0).2.1.length : Int) ≤ cp := hcp
      omega
    show (match getPageGo 0 cp (buildPages pts 1 0).2.2 with
      | some p => p
      | none => 1) = (buildPages pts 1 0).1.length
    rw [getPageGo_all_le cp (buildPages pts 1 0).2.2 0 hnil hall]
    rw [buildPages_pages_length, hlen]
    simp
  · intro p hp h1 hor
    show (match getPageGo 0 cp (buildPages pts 1 0).2.2 with
      | some q => q
      | none => 1) = p.page
    rcases hor with h2 | hlast
    · rw [getPageGo_page_hit cp pts 0 0 p hp h1 h2]
    · have h3 : (extractText pts).pages.length = pts.length :=
        buildPages_pages_length pts 1 0
      have hlast2 : p.page = 0 + pts.length := by
        rw [hlast, h3]
        omega
      rw [getPageGo_last_page_hit cp pts 0 0 p hp hlast2 h1]

/-- Witness for C6 on the two-page document `["ab", "c"]` (offsets `[0, 3]`,
`total_chars = 5`): position `-1` clamps to page 1, position 7 clamps to the
last page, position 0 resolves to page 1 in-range, and position 4 (the final
trailing separator, inside the final page's `[char_start, ∞)` range) resolves
to the final page 2. -/
theorem pageForOffset_clamps_witness :
    getPageForCharPosition (extractText witnessPages).page_offsets (-1) = 1
    ∧ getPageForCharPosition (extractText witnessPages).page_offsets 7
        = (extractText witnessPages).pages.length
    ∧ getPageForCharPosition (extractText witnessPages).page_offsets 0 = 1
    ∧ getPageForCharPosition (extractText witnessPages).page_offsets 4 = 2 := by
  refine ⟨(pageForOffset_clamps witnessPages (by decide) (-1)).1 (by decide),
          (pageForOffset_clamps witnessPages (by decide) 7).2.1 (by decide),
          ?_, ?_⟩
  · exact (pageForOffset_clamps witnessPages (by decide) 0).2.2
      ⟨1, ['a', 'b'], 0, 2⟩ (by decide) (by decide) (Or.inl (by decide))
  · exact (pageForOffset_clamps witnessPages (by decide) 4).2.2
      ⟨2, ['c'], 3, 4⟩ (by decide) (by decide) (Or.inr (by decide))

/-- On a strictly increasing offset table the lookup loop returns the start
index plus the number of offsets at most `cp`, or falls through when there is
none. -/
lemma getPageGo_sorted_count (cp : Int) :
    ∀ (offs : List Nat), List.Sorted (· < ·) offs → ∀ i : Nat,
      getPageGo i cp offs
        = if offs.countP (fun o : Nat => decide ((o : Int) ≤ cp)) = 0 then none
          else some (i + offs.countP (fun o : Nat => decide ((o : Int) ≤ cp))) := by
  intro offs
  induction offs with
  | nil => intro hs i; simp [getPageGo]
  | cons off rest ih =>
    intro hs i
    rw [List.sorted_cons] at hs
    obtain ⟨hall, hs2⟩ := hs
    by_cases hoff : (off : Int) ≤ cp
    · cases rest with
      | nil =>
        rw [getPageGo_single, if_pos hoff]
        simp [List.countP_cons, hoff]
      | cons next rest2 =>
        by_cases hnext : cp < (next : Int)
        · have hcnt : (next :: rest2).countP (fun o : Nat => decide ((o : Int) ≤ cp)) = 0 := by
            rw [List.countP_eq_zero]
            intro x hx
            simp only [decide_eq_true_eq]
            rcases List.mem_cons.mp hx with rfl | hx2
            · omega
            · have := (List.sorted_cons.mp hs2).1 x hx2
              omega
          rw [getPageGo_cons_cons, if_pos ⟨hoff, hnext⟩, List.countP_cons, hcnt]
          simp [hoff]
        · have hcond : ¬ ((off : Int) ≤ cp ∧ cp < (next : Int)) := by omega
          have hpos : 0 < (next :: rest2).countP (fun o : Nat => decide ((o : Int) ≤ cp)) := by
            rw [List.countP_pos_iff]
            refine ⟨next, by simp, ?_⟩
            simp only [decide_eq_true_eq]
            omega
          have hccons : (off :: next :: rest2).countP (fun o : Nat => decide ((o : Int) ≤ cp))
              = (next :: rest2).countP (fun o : Nat => decide ((o : Int) ≤ cp)) + 1 := by
            rw [List.countP_cons]
            simp [hoff]
          rw [getPageGo_cons_cons, if_neg hcond, ih hs2 (i + 1), hccons]
          rw [if_neg (by omega), if_neg (by omega)]
          congr 1
          omega
    · have hcnt : (off :: rest).countP (fun o : Nat => decide ((o : Int) ≤ cp)) = 0 := by
        rw [List.countP_eq_zero]
        intro x hx
        simp only [decide_eq_true_eq]
        rcases List.mem_cons.mp hx with rfl | hx2
        · omega
        · have := hall x hx2
          omega
      rw [if_pos hcnt]
      cases rest with
      | nil => rw [getPageGo_single, if_neg hoff]
      | cons next rest2 =>
        have hz : (next :: rest2).countP (fun o : Nat => decide ((o : Int) ≤ cp)) = 0 := by
          rw [List.countP_cons] at hcnt
          omega
        rw [getPageGo_cons_cons, if_neg (fun hh => hoff hh.1), ih hs2 (i + 1), if_pos hz]

/-- On a strictly increasing offset table `get_page_for_char_position` equals
`max 1` of the number of offsets at most the queried position. -/
lemma getPage_sorted_max (offs : List Nat) (hs : List.Sorted (· < ·) offs) (cp : Int) :
    getPageForCharPosition offs cp
      = max 1 (offs.countP (fun o : Nat => decide ((o : Int) ≤ cp))) := by
  unfold getPageForCharPosition
  rw [getPageGo_sorted_count cp offs hs 0]
  by_cases h : offs.countP (fun o : Nat => decide ((o : Int) ≤ cp)) = 0
  · rw [if_pos h, h]
    simp
  · rw [if_neg h]
    simp only
    omega

/-- C7: for every document produced by `extract_text` and positions `a ≤ b`,
the page number resolved for `a` is at most the page number resolved for `b`
(the offset table is strictly increasing, and the loop's result is `max 1` of
a monotone count). -/
theorem pageForOffset_monotone (pts : List (List Char)) (a b : Int) (hab : a ≤ b) :
    getPageForCharPosition (extractText pts).page_offsets a
      ≤ getPageForCharPosition (extractText pts).page_offsets b := by
  have hs := buildPages_offsets_sorted pts 1 0
  show getPageForCharPosition (buildPages pts 1 0).2.2 a
      ≤ getPageForCharPosition (buildPages pts 1 0).2.2 b
  rw [getPage_sorted_max _ hs a, getPage_sorted_max _ hs b]
  refine max_le_max (le_refl 1) ?_
  refine List.countP_mono_left ?_
  intro x hx hxa
  simp only [decide_eq_true_eq] at hxa ⊢
  omega

/-- Witness for C7 on the two-page document `["ab", "c"]`: positions 0 and 4
resolve to non-decreasing page numbers. -/
theorem pageForOffset_monotone_witness :
    getPageForCharPosition (extractText witnessPages).page_offsets 0
      ≤ getPageForCharPosition (extractText witnessPages).page_offsets 4 :=
  pageForOffset_monotone witnessPages 0 4 (by decide)

/-- Every page record carries its place in the accumulated full text: its
range starts `d` characters into the text built from the initial offset,
`char_end = char_start + len(text)`, the range (plus its trailing separator)
stays inside the full text, and slicing the full text at `[d, d + len)`
recovers the page text. -/
lemma buildPages_page_spec (ts : List (List Char)) :
    ∀ num off p, p ∈ (buildPages ts num off).1 →
    ∃ d, p.char_start = off + d
      ∧ p.char_end = p.char_start + p.text.length
      ∧ d + p.text.length < (buildPages ts num off).2.1.length
      ∧ ((buildPages ts num off).2.1.drop d).take p.text.length = p.text := by
  induction ts with
  | nil => intro num off p hp; simp [buildPages] at hp
  | cons t ts ih =>
    intro num off p hp
    simp only [buildPages, List.mem_cons] at hp
    rcases hp with rfl | hp
    · refine ⟨0, by simp, rfl, ?_, ?_⟩
      · simp only [buildPages, List.length_append, List.length_cons]
        omega
      · simp only [buildPages, List.drop_zero]
        exact List.take_left t _
    · obtain ⟨d, hd1, hd2, hd3, hd4⟩ := ih (num + 1) (off + t.length + 1) p hp
      refine ⟨t.length + 1 + d, by omega, hd2, ?_, ?_⟩
      · simp only [buildPages, List.length_append, List.length_cons]
        omega
      · simp only [buildPages]
        have hsplit :
            (t ++ '\n' :: (buildPages ts (num + 1) (off + t.length + 1)).2.1).drop
                (t.length + 1 + d)
              = (buildPages ts (num + 1) (off + t.length + 1)).2.1.drop d := by
          rw [show t.length + 1 + d = t.length + (d + 1) by omega]
          rw [List.drop_append, List.drop_succ_cons]
        rw [hsplit, hd4]

/-- Soundness of the fuelled `range`: every emitted start is below `stop`. -/
lemma rangeUpFromGo_mem :
    ∀ (fuel stop s1 i x : Nat), x ∈ rangeUpFromGo fuel stop s1 i → x < stop := by
  intro fuel
  induction fuel with
  | zero => intro stop s1 i x hx; simp [rangeUpFromGo] at hx
  | succ fuel ih =>
    intro stop s1 i x hx
    unfold rangeUpFromGo at hx
    by_cases h : i < stop
    · rw [if_pos h] at hx
      rcases List.mem_cons.mp hx with rfl | hx2
      · exact h
      · exact ih stop s1 (i + s1 + 1) x hx2
    · rw [if_neg h] at hx
      simp at hx

/-- Every chunk a successful chunking run emits comes from some page's window
list. -/
lemma chunkDocument_ok_mem (documentId : String) (cs co : Nat) :
    ∀ (pages : List Page) (chunks : List Chunk),
      chunkDocument documentId pages cs co = Except.ok chunks →
      ∀ c ∈ chunks, ∃ p ∈ pages, ∃ idxs,
        pyRangeZeroStart p.text.length ((cs : Int) - (co : Int)) = Except.ok idxs
        ∧ c ∈ chunkPage documentId p cs idxs := by
  intro pages
  induction pages with
  | nil =>
    intro chunks hok c hc
    simp only [chunkDocument] at hok
    injection hok with h
    subst h
    simp at hc
  | cons p ps ih =>
    intro chunks hok c hc
    simp only [chunkDocument] at hok
    cases hr : pyRangeZeroStart p.text.length ((cs : Int) - (co : Int)) with
    | error e =>
      rw [hr] at hok
      simp at hok
    | ok idxs =>
      rw [hr] at hok
      cases hd : chunkDocument documentId ps cs co with
      | error e =>
        rw [hd] at hok
        simp at hok
      | ok rest =>
        rw [hd] at hok
        simp only at hok
        injection hok with h
        subst h
        rcases List.mem_append.mp hc with hcl | hcr
        · exact ⟨p, List.mem_cons_self p ps, idxs, hr, hcl⟩
        · obtain ⟨q, hq, idxs2, hr2, hc2⟩ := ih rest hd c hcr
          exact ⟨q, List.mem_cons_of_mem p hq, idxs2, hr2, hc2⟩

/-- Every chunk the per-page window body emits is the recorded slice at some
window start of the page, with the recorded id, page number and range. -/
lemma chunkPage_mem {documentId : String} {p : Page} {cs : Nat} {idxs : List Nat}
    {c : Chunk} (hc : c ∈ chunkPage documentId p cs idxs) :
    ∃ i, i ∈ idxs
      ∧ ((p.text.drop i).take cs).all pyIsSpace = false
      ∧ c = { chunk_id := chunkId documentId p.page i,
              text := (p.text.drop i).take cs,
              page := p.page,
              char_start := p.char_start + i,
              char_end := min (p.char_start + i + ((p.text.drop i).take cs).length)
                p.char_end } := by
  unfold chunkPage at hc
  obtain ⟨i, hi, hf⟩ := List.mem_filterMap.mp hc
  simp only at hf
  refine ⟨i, hi, ?_⟩
  by_cases hs : ((p.text.drop i).take cs).all pyIsSpace
  · rw [if_pos hs] at hf
    simp at hf
  · rw [if_neg hs] at hf
    injection hf with h
    exact ⟨by simpa using hs, h.symm⟩

/-- Slicing the full text at a window inside a page's slice recovers the
window's slice of the page text. -/
lemma take_of_nested_slice (A ptext : List Char) (d i cs : Nat)
    (hslice : (A.drop d).take ptext.length = ptext) :
    ((A.drop d).drop i).take ((ptext.drop i).take cs).length
      = (ptext.drop i).take cs := by
  have hL : ((ptext.drop i).take cs).length = min cs (ptext.length - i) := by
    simp [List.length_take, List.length_drop]
  rw [hL]
  conv_rhs => rw [← hslice]
  rw [List.drop_take, List.take_take]

/-- C5: for every document produced by `extract_text` and every chunk emitted
by a successful run of `index_document`'s chunking loop with
`chunk_overlap < chunk_size`, the chunk text is exactly
`full_text[char_start:char_end]`, `char_end - char_start` is the chunk text's
length, and the chunk's range lies inside its owning page's range (chunks
never cross a page boundary). -/
theorem chunk_roundtrip (pts : List (List Char)) (documentId : String) (cs co : Nat)
    (hco : co < cs) (chunks : List Chunk)
    (hok : chunkDocument documentId (extractText pts).pages cs co = Except.ok chunks)
    (c : Chunk) (hc : c ∈ chunks) :
    ((extractText pts).text.drop c.char_start).take (c.char_end - c.char_start) = c.text
    ∧ c.char_end - c.char_start = c.text.length
    ∧ ∃ p ∈ (extractText pts).pages, p.page = c.page
        ∧ p.char_start ≤ c.char_start ∧ c.char_end ≤ p.char_end := by
  obtain ⟨p, hp, idxs, hr, hcp⟩ :=
    chunkDocument_ok_mem documentId cs co (extractText pts).pages chunks hok c hc
  obtain ⟨i, hi, hns, rfl⟩ := chunkPage_mem hcp
  obtain ⟨d, hd1, hd2, hd3, hd4⟩ := buildPages_page_spec pts 1 0 p hp
  have hd0 : p.char_start = d := by omega
  have hi_lt : i < p.text.length := by
    have hstep0 : ¬ ((cs : Int) - (co : Int) = 0) := by omega
    have hstepneg : ¬ ((cs : Int) - (co : Int) < 0) := by omega
    unfold pyRangeZeroStart at hr
    rw [if_neg hstep0, if_neg hstepneg] at hr
    injection hr with h
    rw [← h] at hi
    unfold rangeUpFrom at hi
    exact rangeUpFromGo_mem _ _ _ _ _ hi
  have hchlen : ((p.text.drop i).take cs).length = min cs (p.text.length - i) := by
    simp [List.length_take, List.length_drop]
  have hle : i + ((p.text.drop i).take cs).length ≤ p.text.length := by
    rw [hchlen]
    omega
  have hend : min (p.char_start + i + ((p.text.drop i).take cs).length) p.char_end
      = p.char_start + i + ((p.text.drop i).take cs).length := by
    rw [hd2]
    omega
  refine ⟨?_, ?_, ⟨p, hp, rfl, ?_, ?_⟩⟩
  · show ((buildPages pts 1 0).2.1.drop (p.char_start + i)).take
        (min (p.char_start + i + ((p.text.drop i).take cs).length) p.char_end
          - (p.char_start + i))
      = (p.text.drop i).take cs
    rw [hend]
    have harith : p.char_start + i + ((p.text.drop i).take cs).length
        - (p.char_start + i) = ((p.text.drop i).take cs).length := by omega
    rw [harith, hd0, ← List.drop_drop]
    exact take_of_nested_slice _ _ d i cs hd4
  · show min (p.char_start + i + ((p.text.drop i).take cs).length) p.char_end
        - (p.char_start + i) = ((p.text.drop i).take cs).length
    rw [hend]
    omega
  · show p.char_start ≤ p.char_start + i
    omega
  · show min (p.char_start + i + ((p.text.drop i).take cs).length) p.char_end
        ≤ p.char_end
    exact min_le_right _ _

/-- Witness for C5: the first chunk of the two-page document `["ab", "c"]`
chunked with `chunk_size = 2, chunk_overlap = 1`. -/
theorem chunk_roundtrip_witness :
    ((extractText witnessPages).text.drop wChunk.char_start).take
        (wChunk.char_end - wChunk.char_start) = wChunk.text
    ∧ wChunk.char_end - wChunk.char_start = wChunk.text.length
    ∧ ∃ p ∈ (extractText witnessPages).pages, p.page = wChunk.page
        ∧ p.char_start ≤ wChunk.char_start ∧ wChunk.char_end ≤ p.char_end :=
  chunk_roundtrip witnessPages "doc" 2 1 (by decide) wChunks (by rfl) wChunk
    (by decide)

end ContractIntelligence
